import Mathlib

/-!
Verification of the binary-image tree engine of `spsdk/utils/images.py`.

The embedding below translates the Python classes `BinaryPattern` and
`BinaryImage` into Lean.  Byte strings are modelled as `List Nat`
(each entry a byte value), Python integers as `Int`, and Python's
in-place mutating methods as functions returning the updated value.
Fallible operations return `Option`/`Except`.  Python slice-assignment
semantics on `bytearray` (index normalisation, clamping, and the fact
that assigning a longer right-hand side grows the buffer) are modelled
exactly by `setSlice` below.
-/

/-- Model of the `BinaryPattern` class.  The Python constructor stores a
string and `get_block` decodes it on demand via `value_to_bytes` (an
external helper from `spsdk.utils.misc`, not part of the sources under
verification); the `literal` constructor therefore carries the already
decoded byte list.  The special tokens mirror `SPECIAL_PATTERNS`. -/
inductive BinaryPattern where
  | zeros
  | ones
  | rand
  | inc
  | literal (bs : List Nat)
deriving DecidableEq

/-- Python `pattern * n`: the byte string repeated `n` times end to end. -/
def repeatList (xs : List Nat) : Nat → List Nat
  | 0 => []
  | n + 1 => xs ++ repeatList xs n

/-- Model of `BinaryPattern.get_block(size)`.  `rnd` models the external
cryptographic random generator used by the `rand` branch (byte `i` of the
random block is `rnd i`).  The literal branch mirrors the source line
`block = bytes(pattern * int((size / len(pattern))))` followed by
`block[:size]`: Python's `int(size / len(pattern))` truncates the true
quotient, i.e. it is the floor `size / len(pattern)` for the (exactly
representable) sizes considered here. -/
def BinaryPattern.get_block (rnd : Nat → Nat) : BinaryPattern → Nat → List Nat
  | .zeros, size => List.replicate size 0
  | .ones, size => List.replicate size 255
  | .rand, size => (List.range size).map rnd
  | .inc, size => (List.range size).map (· % 256)
  | .literal bs, size => (repeatList bs (size / bs.length)).take size

/-- Model of the `BinaryImage` class.  Field order and names follow the
Python constructor: `offset`, `_size` (called `size` here), `binary`
(where `[]` plays the role of both `None` and the falsy empty byte
string), `pattern`, `sub_images`.  The `name`/`description` fields only
feed diagnostics and the `parent` back-reference only feeds
`absolute_address`/`image_name`; the back-reference is modelled by
passing the parent's absolute address explicitly (see
`absolute_address`). -/
inductive BinaryImage where
  | mk (offset : Int) (size : Int) (binary : List Nat)
       (pattern : Option BinaryPattern) (sub_images : List BinaryImage)

/-- Projection for the `offset` attribute. -/
def BinaryImage.offset : BinaryImage → Int
  | .mk o _ _ _ _ => o

/-- Projection for the `_size` attribute. -/
def BinaryImage.size : BinaryImage → Int
  | .mk _ s _ _ _ => s

/-- Projection for the `binary` attribute (`[]` models `None`/empty). -/
def BinaryImage.binary : BinaryImage → List Nat
  | .mk _ _ b _ _ => b

/-- Projection for the `pattern` attribute. -/
def BinaryImage.pattern : BinaryImage → Option BinaryPattern
  | .mk _ _ _ p _ => p

/-- Projection for the `sub_images` attribute. -/
def BinaryImage.sub_images : BinaryImage → List BinaryImage
  | .mk _ _ _ _ s => s

mutual
/-- Model of `BinaryImage.__len__`: the declared size if nonzero
(Python's `if self._size:` truthiness test), otherwise the running
maximum of `len(self.binary)` (0 when `binary` is falsy) and
`image.offset + len(image)` over the sub-images, in list order. -/
def BinaryImage.len : BinaryImage → Int
  | .mk _ size binary _ subs =>
    if size ≠ 0 then size
    else maxSubLen subs (if binary = [] then 0 else (binary.length : Int))

/-- The loop of `BinaryImage.__len__` over `self.sub_images`. -/
def maxSubLen : List BinaryImage → Int → Int
  | [], acc => acc
  | c :: cs, acc => maxSubLen cs (max (c.offset + BinaryImage.len c) acc)
end

/-- Model of the insertion loop of `BinaryImage.add_image`: scan the
child list and insert the new image directly before the first child
whose offset is strictly greater; append when no such child exists. -/
def insertChild (image : BinaryImage) : List BinaryImage → List BinaryImage
  | [] => [image]
  | child :: rest =>
    if image.offset < child.offset then image :: child :: rest
    else child :: insertChild image rest

/-- Model of `BinaryImage.add_image` (the `image.parent = self`
assignment is the back-reference, which the value model carries
implicitly). -/
def add_image (self image : BinaryImage) : BinaryImage :=
  .mk self.offset self.size self.binary self.pattern
      (insertChild image self.sub_images)

/-- Model of `BinaryImage.absolute_address`: the parent chain is
replaced by the parent's absolute address (`0` for a root). -/
def absolute_address (parentAddr : Int) (self : BinaryImage) : Int :=
  parentAddr + self.offset

/-- Model of `BinaryImage.update_offsets`.  The source builds the list
of child offsets and calls `min` on it: on an empty child list Python's
`min([])` raises `ValueError` before any field has been mutated, which
the embedding renders as `Except.error ()` carrying no updated tree.
Otherwise every child offset is decreased by the minimum and the node's
own offset increased by it. -/
def update_offsets (self : BinaryImage) : Except Unit BinaryImage :=
  match self.sub_images with
  | [] => .error ()
  | c :: cs =>
    let min_offset := (cs.map BinaryImage.offset).foldl min c.offset
    .ok (.mk (self.offset + min_offset) self.size self.binary self.pattern
          ((c :: cs).map (fun x =>
            .mk (x.offset - min_offset) x.size x.binary x.pattern x.sub_images)))

/-- The minimum of the child offsets (`min(offsets)` in the source),
`0` by convention for a childless node. -/
def minChildOffset (img : BinaryImage) : Int :=
  match img.sub_images with
  | [] => 0
  | c :: cs => (cs.map BinaryImage.offset).foldl min c.offset

/-- The error kinds that `BinaryImage.validate` can raise:
`SPSDKValueError` for the offset/size checks, and the two
`SPSDKOverlapError` raises distinguished by their messages (the fit
failure and the sibling-overlap failure). -/
inductive VErr where
  | valueError
  | fitError
  | overlapError
deriving DecidableEq

/-- The inclusive begin/end interval of each child, as the sibling loop
of `BinaryImage.validate` computes it: `(offset, offset + len - 1)`. -/
def intervalsOf (cs : List BinaryImage) : List (Int × Int) :=
  cs.map (fun s => (s.offset, s.offset + s.len - 1))

/-- The inner sibling loop of `BinaryImage.validate` for the child at
position `i` with inclusive range `[b, e]`: the Python loop skips the
child itself (an object-identity test, rendered here as an index test)
and raises on the first sibling whose inclusive range is not disjoint
(`end < sibling_begin or begin > sibling_end` is the disjointness
test); only whether some sibling triggers the raise is relevant to the
produced error kind. -/
def hasOverlapAt (b e : Int) (i : Nat) (ivs : List (Int × Int)) : Bool :=
  (List.range ivs.length).any fun j =>
    decide (j ≠ i) &&
      (match ivs.get? j with
       | some iv => !(decide (e < iv.1) || decide (b > iv.2))
       | none => false)

mutual
/-- Model of `BinaryImage.validate`: raise `SPSDKValueError` when the
offset is negative or the effective length is not positive, then walk
the children in order (recursive validation first, then the fit check
`end > len(self)` with `end = offset + len - 1`, then the sibling
overlap scan), returning the first error raised, `none` when
validation passes. -/
def validate : BinaryImage → Option VErr
  | .mk o sz bin pat subs =>
    let l := BinaryImage.len (.mk o sz bin pat subs)
    if o < 0 then some .valueError
    else if l ≤ 0 then some .valueError
    else validateLoop l (intervalsOf subs) subs 0

/-- The `for image in self.sub_images` loop of `BinaryImage.validate`,
carrying the position `i` of the current child so that the sibling scan
can skip the child itself. -/
def validateLoop (plen : Int) (ivs : List (Int × Int)) :
    List BinaryImage → Nat → Option VErr
  | [], _ => none
  | image :: rest, i =>
    match validate image with
    | some err => some err
    | none =>
      let b := image.offset
      let e := b + image.len - 1
      if e > plen then some .fitError
      else if hasOverlapAt b e i ivs then some .overlapError
      else validateLoop plen ivs rest (i + 1)
end

/-- Python slice-bound normalisation for a sequence of length `n`: a
negative bound counts from the end (clamped below at 0), a nonnegative
bound is clamped above at `n`. -/
def normIdx (n : Nat) (i : Int) : Nat :=
  if i < 0 then n - (-i).toNat else min i.toNat n

/-- Python `ret[a:b] = x` on a `bytearray`: the (normalised, clamped)
slice is replaced by `x`, growing or shrinking the buffer when the
lengths differ.  When the normalised stop bound lies before the start
bound the slice is empty and `x` is inserted at the start bound. -/
def setSlice (ret : List Nat) (a b : Int) (x : List Nat) : List Nat :=
  ret.take (normIdx ret.length a) ++ x ++
    ret.drop (max (normIdx ret.length a) (normIdx ret.length b))

/-- Python `xs[:b]` on bytes. -/
def listSliceTo (xs : List Nat) (b : Int) : List Nat :=
  xs.take (normIdx xs.length b)

/-- The background buffer of `BinaryImage.export`:
`self.pattern.get_block(len(self))` when a pattern is set, otherwise
`bytearray(len(self))`, i.e. zeros.  (Python raises for a negative
length; the embedding is used on nonnegative lengths, where `toNat` is
the identity.) -/
def patternBlock (rnd : Nat → Nat) (img : BinaryImage) : List Nat :=
  match img.pattern with
  | some p => p.get_block rnd img.len.toNat
  | none => List.replicate img.len.toNat 0

/-- The buffer of `BinaryImage.export` after the
`ret[: len(self.binary)] = self.binary` overlay (skipped when `binary`
is falsy), before any child is applied. -/
def preChildren (rnd : Nat → Nat) (img : BinaryImage) : List Nat :=
  if img.binary = [] then patternBlock rnd img
  else setSlice (patternBlock rnd img) 0 (img.binary.length : Int) img.binary

mutual
/-- Model of `BinaryImage.export`: start from the pattern background,
overlay the own binary content, then overlay each child's exported
buffer (cut down to `len(child)`) at
`ret[child.offset : child.offset + len(child)]`, in child-list order. -/
def exportImage (rnd : Nat → Nat) : BinaryImage → List Nat
  | .mk o sz bin pat subs =>
    exportLoop rnd (preChildren rnd (.mk o sz bin pat subs)) subs

/-- The `for image in self.sub_images` loop of `BinaryImage.export`. -/
def exportLoop (rnd : Nat → Nat) (ret : List Nat) : List BinaryImage → List Nat
  | [] => ret
  | image :: rest =>
    exportLoop rnd
      (setSlice ret image.offset (image.offset + image.len)
        (listSliceTo (exportImage rnd image) image.len)) rest
end

/-- A pattern whose `get_block` really produces the requested number of
bytes: always true for the special tokens, and for a byte literal
exactly when the literal's length divides the requested size (see the
analysis of `get_block`'s repeat count). -/
def patternFull : Option BinaryPattern → Nat → Bool
  | some (.literal bs), n => decide (bs.length ≠ 0) && decide (n % bs.length = 0)
  | _, _ => true

mutual
/-- Well-formedness under which `export` is length-preserving: the
effective length is nonnegative, the pattern background has full
length, the binary content fits, and every child starts at a
nonnegative offset, ends within the node, and is itself well formed.
Sibling ranges may overlap: disjointness is deliberately not
required. -/
def exportOk : BinaryImage → Bool
  | .mk o sz bin pat subs =>
    let l := BinaryImage.len (.mk o sz bin pat subs)
    decide (0 ≤ l) && patternFull pat l.toNat &&
      decide ((bin.length : Int) ≤ l) && exportOkList l subs

/-- The child conditions of `exportOk`, relative to the parent's
effective length. -/
def exportOkList (plen : Int) : List BinaryImage → Bool
  | [] => true
  | c :: cs =>
    decide (0 ≤ c.offset) && decide (c.offset + c.len ≤ plen) && exportOk c &&
      exportOkList plen cs
end

/-- Half-open range intersection of two siblings: the intersection
`[max o₁ o₂, min (o₁+l₁) (o₂+l₂))` of `[o₁, o₁+l₁)` and `[o₂, o₂+l₂)`
is nonempty. -/
def overlapsHO (c d : BinaryImage) : Bool :=
  decide (max c.offset d.offset < min (c.offset + c.len) (d.offset + d.len))

/-- Some pair of distinct positions in the child list holds siblings
whose half-open ranges intersect. -/
def anyOverlap (cs : List BinaryImage) : Bool :=
  (List.range cs.length).any fun i =>
    (List.range cs.length).any fun j =>
      decide (i ≠ j) &&
        (match cs.get? i, cs.get? j with
         | some c, some d => overlapsHO c d
         | _, _ => false)

/-- The last child in list order whose half-open range covers absolute
local position `k` (`none` when no child covers `k`): the child whose
bytes survive at `k` after the export loop. -/
def lastCover (k : Int) (cs : List BinaryImage) : Option BinaryImage :=
  cs.foldl (fun acc c =>
    if c.offset ≤ k ∧ k < c.offset + c.len then some c else acc) none

/-- The sibling scan of `validate` seen from the outer loop: the child
at position `t` of the list (if any) has some overlapping partner under
the code's inclusive-interval test. -/
def overlapAt (all : List BinaryImage) (t : Nat) : Bool :=
  match all.get? t with
  | some c => hasOverlapAt c.offset (c.offset + c.len - 1) t (intervalsOf all)
  | none => false

/-- The tree of the normalization scenario: a parent at offset 0 with
children at offsets 10, 20, 30. -/
def c7img : BinaryImage :=
  .mk 0 100 [] none [.mk 10 1 [] none [], .mk 20 1 [] none [], .mk 30 1 [] none []]

/-- The tree produced by `update_offsets` on `c7img`. -/
def c7res : BinaryImage :=
  .mk 10 100 [] none [.mk 0 1 [] none [], .mk 10 1 [] none [], .mk 20 1 [] none []]

/-- A root at offset 0 with a single child at offset 10. -/
def c9img : BinaryImage := .mk 0 50 [] none [.mk 10 5 [] none []]

/-- The tree produced by `update_offsets` on `c9img`. -/
def c9res : BinaryImage := .mk 10 50 [] none [.mk 0 5 [] none []]

/-- An unvalidated tree with overlapping siblings: a size-6 parent with
a `zeros` background, own content `09 09 09`, and children of size 3 at
offsets 1 and 2 whose ranges share positions 2 and 3. -/
def c6tree : BinaryImage :=
  .mk 0 6 [9, 9, 9] (some .zeros)
    [.mk 1 3 [1, 1, 1] none [], .mk 2 3 [2, 2, 2] none []]

/-- Defining equation of the `offset` projection. -/
@[simp] theorem BinaryImage.offset_mk (o sz : Int) (bin : List Nat)
    (pat : Option BinaryPattern) (subs : List BinaryImage) :
    (BinaryImage.mk o sz bin pat subs).offset = o := rfl

/-- Defining equation of the `size` projection. -/
@[simp] theorem BinaryImage.size_mk (o sz : Int) (bin : List Nat)
    (pat : Option BinaryPattern) (subs : List BinaryImage) :
    (BinaryImage.mk o sz bin pat subs).size = sz := rfl

/-- Defining equation of the `binary` projection. -/
@[simp] theorem BinaryImage.binary_mk (o sz : Int) (bin : List Nat)
    (pat : Option BinaryPattern) (subs : List BinaryImage) :
    (BinaryImage.mk o sz bin pat subs).binary = bin := rfl

/-- Defining equation of the `pattern` projection. -/
@[simp] theorem BinaryImage.pattern_mk (o sz : Int) (bin : List Nat)
    (pat : Option BinaryPattern) (subs : List BinaryImage) :
    (BinaryImage.mk o sz bin pat subs).pattern = pat := rfl

/-- Defining equation of the `sub_images` projection. -/
@[simp] theorem BinaryImage.sub_images_mk (o sz : Int) (bin : List Nat)
    (pat : Option BinaryPattern) (subs : List BinaryImage) :
    (BinaryImage.mk o sz bin pat subs).sub_images = subs := rfl

/-- C1: for the literal pattern `0xAABB` (byte encoding `[0xAA, 0xBB]`)
and size 5 the code returns only `floor(5/2) = 2` repetitions, i.e.
4 bytes, not the 5 bytes the claim (and the method's own docstring)
require: the repeat count in `get_block` is `int(size / len(pattern))`,
a floor, not a ceiling, so the returned block is shorter than `size`
whenever the literal's length does not divide `size`. -/
theorem c1_get_block_literal_short :
    BinaryPattern.get_block (fun _ => 0) (.literal [170, 187]) 5
        = [170, 187, 170, 187] ∧
    (BinaryPattern.get_block (fun _ => 0) (.literal [170, 187]) 5).length = 4 ∧
    (BinaryPattern.get_block (fun _ => 0) (.literal [170, 187]) 5).length ≠ 5 := by
  decide

/-- C2: the fit check of `validate` compares the inclusive end
`offset + len - 1` against `len(parent)` instead of `len(parent) - 1`:
a child at offset 5 of effective length 6 inside a parent of effective
length 10 (so `offset + len = 11 > 10`) passes validation, although the
claim (and the check's stated purpose of ensuring the child fits inside
the parent) requires a fit error; a child of effective length 10 at the
same offset does raise the fit error. -/
theorem c2_fit_check_off_by_one :
    validate (.mk 0 10 [] none [.mk 5 6 [] none []]) = none ∧
    validate (.mk 0 10 [] none [.mk 5 10 [] none []]) = some .fitError := by
  decide

/-- C3 counterexample: a node of declared size 2 whose content buffer
holds 4 bytes exports all 4 content bytes — Python's slice assignment
`ret[: len(self.binary)] = self.binary` grows the buffer instead of
clamping the content to the node's effective length, so
`len(export(node)) ≠ effective_length(node)`. -/
theorem c3_counterexample :
    exportImage (fun _ => 0) (.mk 0 2 [1, 2, 3, 4] none []) = [1, 2, 3, 4] ∧
    BinaryImage.len (.mk 0 2 [1, 2, 3, 4] none []) = 2 ∧
    (exportImage (fun _ => 0) (.mk 0 2 [1, 2, 3, 4] none [])).length ≠
      (BinaryImage.len (.mk 0 2 [1, 2, 3, 4] none [])).toNat := by
  decide

/-- The insertion loop of `add_image` splits the child list at the
first child with strictly greater offset: the new child lands after
every existing child whose offset is less than or equal to its own. -/
theorem insertChild_eq (b : BinaryImage) (l : List BinaryImage) :
    insertChild b l =
      l.takeWhile (fun c => decide (c.offset ≤ b.offset)) ++
        b :: l.dropWhile (fun c => decide (c.offset ≤ b.offset)) := by
  induction l with
  | nil => simp [insertChild]
  | cons c cs ih =>
    by_cases h : b.offset < c.offset
    · have hc : ¬ c.offset ≤ b.offset := not_le.mpr h
      simp [insertChild, h, List.takeWhile_cons, List.dropWhile_cons, hc]
    · have hc : c.offset ≤ b.offset := not_lt.mp h
      simp [insertChild, h, List.takeWhile_cons, List.dropWhile_cons, hc, ih]

/-- C4 counterexample: a parent with one child at offset 5 (of size 1);
adding a second child at the same offset 5 (of size 2) places the new
child after the existing equal-offset child, not before it — the child
sizes come out in order `[1, 2]`, where the claim requires `[2, 1]`. -/
theorem c4_counterexample :
    ((add_image (.mk 0 0 [] none [.mk 5 1 [] none []])
        (.mk 5 2 [] none [])).sub_images.map BinaryImage.size) = [1, 2] ∧
    ((add_image (.mk 0 0 [] none [.mk 5 1 [] none []])
        (.mk 5 2 [] none [])).sub_images.map BinaryImage.size) ≠ [2, 1] := by
  decide

/-- C4 amended: `add_image` inserts the new child directly before the
first existing child whose offset is strictly greater, hence after all
existing children with offset less than or equal to the new child's
offset — in particular a child with an offset equal to an existing
child's offset is placed immediately after that child, not before
it. -/
theorem c4_equal_offset_insert_after (p b : BinaryImage) :
    (add_image p b).sub_images =
      p.sub_images.takeWhile (fun c => decide (c.offset ≤ b.offset)) ++
        b :: p.sub_images.dropWhile (fun c => decide (c.offset ≤ b.offset)) := by
  cases p with | mk o sz bin pat subs =>
  simpa [add_image] using insertChild_eq b subs

/-- C10: calling `update_offsets` on a node with no children fails:
Python's `min([])` raises `ValueError` before any field of the node has
been assigned, so the failed call leaves the node's offset and (empty)
child list untouched — in the embedding the call returns an error
carrying no updated tree. -/
theorem c10_update_offsets_no_children (img : BinaryImage)
    (h : img.sub_images = []) : update_offsets img = .error () := by
  cases img with | mk o sz bin pat subs =>
  simp only [BinaryImage.sub_images_mk] at h
  subst h
  rfl

/-- Witness for C10 at a concrete childless node. -/
theorem c10_witness :
    (BinaryImage.mk 3 7 [1] none []).sub_images = [] ∧
    update_offsets (.mk 3 7 [1] none []) = .error () :=
  ⟨rfl, c10_update_offsets_no_children (.mk 3 7 [1] none []) rfl⟩

/-- A fold of `min` over a list is bounded by its initial value. -/
theorem foldl_min_le_init (l : List Int) : ∀ a : Int, l.foldl min a ≤ a := by
  induction l with
  | nil => intro a; simp
  | cons x xs ih =>
    intro a
    calc (x :: xs).foldl min a = xs.foldl min (min a x) := by simp
    _ ≤ min a x := ih (min a x)
    _ ≤ a := min_le_left a x

/-- A fold of `min` over a list is bounded by every list element. -/
theorem foldl_min_le_mem (l : List Int) :
    ∀ (a x : Int), x ∈ l → l.foldl min a ≤ x := by
  induction l with
  | nil => intro a x hx; simp at hx
  | cons y ys ih =>
    intro a x hx
    rcases List.mem_cons.mp hx with h | h
    · subst h
      calc (x :: ys).foldl min a = ys.foldl min (min a x) := by simp
      _ ≤ min a x := foldl_min_le_init ys (min a x)
      _ ≤ x := min_le_right a x
    · simpa using ih (min a y) x h

/-- A fold of `min` over a list is the initial value or one of the
elements. -/
theorem foldl_min_mem (l : List Int) :
    ∀ a : Int, l.foldl min a = a ∨ l.foldl min a ∈ l := by
  induction l with
  | nil => intro a; simp
  | cons y ys ih =>
    intro a
    rcases ih (min a y) with h | h
    · rcases min_choice a y with hm | hm
      · left; simpa [hm] using h
      · right; simp only [List.foldl_cons]; rw [h, hm]; exact List.mem_cons_self y ys
    · right; exact List.mem_cons_of_mem y (by simpa using h)

/-- C7: on a node with at least one child, `update_offsets` succeeds,
adds the minimum child offset to the node's own offset, subtracts it
from every child offset, and thereby makes the minimum child offset
exactly 0 (all new child offsets are nonnegative and one of them is
0). -/
theorem c7_update_offsets_spec (img img' : BinaryImage)
    (h : update_offsets img = .ok img') :
    img'.offset = img.offset + minChildOffset img ∧
    img'.sub_images.map BinaryImage.offset =
      img.sub_images.map (fun c => c.offset - minChildOffset img) ∧
    (∀ c ∈ img'.sub_images, 0 ≤ c.offset) ∧
    (∃ c ∈ img'.sub_images, c.offset = 0) := by
  cases img with | mk o sz bin pat subs =>
  cases subs with
  | nil => simp [update_offsets] at h
  | cons c cs =>
    have hm : minChildOffset (.mk o sz bin pat (c :: cs)) =
        (cs.map BinaryImage.offset).foldl min c.offset := rfl
    have hmin_le : ∀ x ∈ c :: cs,
        (cs.map BinaryImage.offset).foldl min c.offset ≤ x.offset := by
      intro x hx
      rcases List.mem_cons.mp hx with h' | h'
      · subst h'; exact foldl_min_le_init _ _
      · exact foldl_min_le_mem _ _ _ (List.mem_map_of_mem BinaryImage.offset h')
    have hmin_mem : ∃ x ∈ c :: cs,
        x.offset = (cs.map BinaryImage.offset).foldl min c.offset := by
      rcases foldl_min_mem (cs.map BinaryImage.offset) c.offset with h' | h'
      · exact ⟨c, List.mem_cons_self c cs, h'.symm⟩
      · rcases List.mem_map.mp h' with ⟨x, hx, hxo⟩
        exact ⟨x, List.mem_cons_of_mem c hx, hxo⟩
    simp only [update_offsets, BinaryImage.sub_images_mk, Except.ok.injEq] at h
    subst h
    refine ⟨rfl, ?_, ?_, ?_⟩
    · simp [List.map_map, Function.comp, ← hm]
    · intro x hx
      simp only [BinaryImage.sub_images_mk, List.mem_map] at hx
      rcases hx with ⟨y, hy, rfl⟩
      simp only [BinaryImage.offset_mk, sub_nonneg]
      exact hmin_le y hy
    · rcases hmin_mem with ⟨x, hx, hxo⟩
      refine ⟨.mk (x.offset - (cs.map BinaryImage.offset).foldl min c.offset)
        x.size x.binary x.pattern x.sub_images, ?_, ?_⟩
      · simp only [BinaryImage.sub_images_mk, List.mem_map]
        exact ⟨x, hx, rfl⟩
      · simp [hxo]

/-- Witness for C7: the normalization scenario — parent at offset 0
with children at offsets 10, 20, 30 ends with children at 0, 10, 20
and parent offset 10. -/
theorem c7_witness :
    update_offsets c7img = .ok c7res ∧
    (c7res.offset = c7img.offset + minChildOffset c7img ∧
      c7res.sub_images.map BinaryImage.offset =
        c7img.sub_images.map (fun c => c.offset - minChildOffset c7img) ∧
      (∀ c ∈ c7res.sub_images, 0 ≤ c.offset) ∧
      (∃ c ∈ c7res.sub_images, c.offset = 0)) :=
  ⟨rfl, c7_update_offsets_spec c7img c7res rfl⟩

/-- C9 counterexample: a root at offset 0 whose only child sits at
offset 10: `update_offsets` moves the root's offset to 10, so the
node's absolute address changes from 0 to 10 — the operation preserves
the children's absolute positions, not the node's own. -/
theorem c9_counterexample :
    update_offsets c9img = .ok c9res ∧
    absolute_address 0 c9img = 0 ∧
    absolute_address 0 c9res = 10 ∧
    absolute_address 0 c9res ≠ absolute_address 0 c9img :=
  ⟨rfl, rfl, rfl, by decide⟩

/-- C9 amended: `update_offsets` preserves the absolute address of
every child of the node it is called on (the node's own offset absorbs
exactly the amount subtracted from each child's offset); the node's own
absolute address instead grows by the minimum child offset. -/
theorem c9_children_absolute_preserved (img img' : BinaryImage) (anc : Int)
    (h : update_offsets img = .ok img') :
    img'.sub_images.map (absolute_address (absolute_address anc img')) =
      img.sub_images.map (absolute_address (absolute_address anc img)) := by
  cases img with | mk o sz bin pat subs =>
  cases subs with
  | nil => simp [update_offsets] at h
  | cons c cs =>
    simp only [update_offsets, BinaryImage.sub_images_mk, Except.ok.injEq] at h
    subst h
    simp only [BinaryImage.sub_images_mk, List.map_map, absolute_address,
      BinaryImage.offset_mk]
    refine List.map_congr_left ?_
    intro x hx
    simp only [Function.comp_apply, absolute_address, BinaryImage.offset_mk]
    ring

/-- Witness for C9's amended statement at the concrete `c9img` tree. -/
theorem c9_amended_witness :
    update_offsets c9img = .ok c9res ∧
    c9res.sub_images.map (absolute_address (absolute_address 0 c9res)) =
      c9img.sub_images.map (absolute_address (absolute_address 0 c9img)) :=
  ⟨rfl, c9_children_absolute_preserved c9img c9res 0 rfl⟩

/-- Membership after an `add_image` insertion: the list gains exactly
the inserted element. -/
theorem mem_insertChild {x b : BinaryImage} :
    ∀ {l : List BinaryImage}, x ∈ insertChild b l → x = b ∨ x ∈ l := by
  intro l
  induction l with
  | nil => intro h; simpa [insertChild] using h
  | cons c cs ih =>
    intro h
    by_cases hlt : b.offset < c.offset
    · simp only [insertChild, if_pos hlt] at h
      rcases List.mem_cons.mp h with h' | h'
      · exact Or.inl h'
      · exact Or.inr h'
    · simp only [insertChild, if_neg hlt] at h
      rcases List.mem_cons.mp h with h' | h'
      · exact Or.inr (h' ▸ List.mem_cons_self c cs)
      · rcases ih h' with h'' | h''
        · exact Or.inl h''
        · exact Or.inr (List.mem_cons_of_mem c h'')

/-- One `add_image` insertion keeps the child offsets non-decreasing. -/
theorem insertChild_sorted (b : BinaryImage) :
    ∀ (l : List BinaryImage),
      List.Pairwise (· ≤ ·) (l.map BinaryImage.offset) →
      List.Pairwise (· ≤ ·) ((insertChild b l).map BinaryImage.offset) := by
  intro l
  induction l with
  | nil => intro _; simp [insertChild]
  | cons c cs ih =>
    intro h
    simp only [List.map_cons, List.pairwise_cons] at h
    obtain ⟨hc, hcs⟩ := h
    by_cases hlt : b.offset < c.offset
    · simp only [insertChild, if_pos hlt, List.map_cons, List.pairwise_cons]
      refine ⟨?_, ?_⟩
      · intro y hy
        rcases List.mem_cons.mp hy with h' | h'
        · exact h' ▸ le_of_lt hlt
        · exact le_trans (le_of_lt hlt) (hc y h')
      · exact ⟨hc, hcs⟩
    · simp only [insertChild, if_neg hlt, List.map_cons, List.pairwise_cons]
      refine ⟨?_, ih hcs⟩
      intro y hy
      rcases List.mem_map.mp hy with ⟨x, hx, rfl⟩
      rcases mem_insertChild hx with h' | h'
      · exact h' ▸ not_lt.mp hlt
      · exact hc x.offset (List.mem_map_of_mem BinaryImage.offset h')

/-- Any sequence of `add_image` calls starting from a sorted child list
keeps the child offsets non-decreasing. -/
theorem foldl_add_image_sorted :
    ∀ (imgs : List BinaryImage) (p : BinaryImage),
      List.Pairwise (· ≤ ·) (p.sub_images.map BinaryImage.offset) →
      List.Pairwise (· ≤ ·)
        ((imgs.foldl add_image p).sub_images.map BinaryImage.offset) := by
  intro imgs
  induction imgs with
  | nil => intro p h; exact h
  | cons i is ih =>
    intro p h
    refine ih (add_image p i) ?_
    cases p with | mk o sz bin pat subs =>
    simpa [add_image] using insertChild_sorted i subs (by simpa using h)

/-- C8: starting from a parent with an empty child list, after any
sequence of `add_image` calls the child list is non-decreasing by
offset. -/
theorem c8_insertion_sorted (imgs : List BinaryImage) (o sz : Int)
    (bin : List Nat) (pat : Option BinaryPattern) :
    List.Pairwise (· ≤ ·)
      ((imgs.foldl add_image (.mk o sz bin pat [])).sub_images.map
        BinaryImage.offset) :=
  foldl_add_image_sorted imgs (.mk o sz bin pat []) (by simp)

/-- Length of a repeated byte string. -/
theorem repeatList_length (xs : List Nat) :
    ∀ n : Nat, (repeatList xs n).length = n * xs.length := by
  intro n
  induction n with
  | zero => simp [repeatList]
  | succ k ih => simp [repeatList, ih, Nat.succ_mul, Nat.add_comm]

/-- Under `patternFull`, `get_block` returns exactly the requested
number of bytes. -/
theorem get_block_length (rnd : Nat → Nat) (p : BinaryPattern) (n : Nat)
    (h : patternFull (some p) n = true) : (p.get_block rnd n).length = n := by
  cases p with
  | zeros => simp [BinaryPattern.get_block]
  | ones => simp [BinaryPattern.get_block]
  | rand => simp [BinaryPattern.get_block]
  | inc => simp [BinaryPattern.get_block]
  | literal bs =>
    simp only [patternFull, Bool.and_eq_true, decide_eq_true_eq] at h
    obtain ⟨hne, hdvd⟩ := h
    have hd : bs.length ∣ n := Nat.dvd_of_mod_eq_zero hdvd
    simp only [BinaryPattern.get_block, List.length_take, repeatList_length]
    rw [Nat.div_mul_cancel hd]
    exact Nat.min_self n

/-- Under `patternFull`, the background buffer of `export` has exactly
the node's effective length. -/
theorem patternBlock_length (rnd : Nat → Nat) (img : BinaryImage)
    (h : patternFull img.pattern img.len.toNat = true) :
    (patternBlock rnd img).length = img.len.toNat := by
  unfold patternBlock
  cases hp : img.pattern with
  | none => simp
  | some p => exact get_block_length rnd p _ (hp ▸ h)

/-- A full-length slice read returns the whole buffer. -/
theorem listSliceTo_self (xs : List Nat) (n : Int) (h1 : 0 ≤ n)
    (h2 : xs.length = n.toNat) : listSliceTo xs n = xs := by
  unfold listSliceTo normIdx
  rw [if_neg (not_lt.mpr h1), h2, Nat.min_self, ← h2, List.take_length]

/-- A slice assignment whose target slice lies inside the buffer and
whose right-hand side has exactly the slice's width preserves the
buffer's length. -/
theorem setSlice_length (ret x : List Nat) (a b : Int) (ha : 0 ≤ a)
    (hab : b = a + (x.length : Int)) (hb : b ≤ (ret.length : Int)) :
    (setSlice ret a b x).length = ret.length := by
  have hb0 : 0 ≤ b := by
    have := Int.natCast_nonneg x.length
    omega
  unfold setSlice normIdx
  rw [if_neg (not_lt.mpr ha), if_neg (not_lt.mpr hb0)]
  simp only [List.length_append, List.length_take, List.length_drop]
  omega

/-- The export loop preserves the buffer length when every child's
window lies inside the parent and every child exports exactly its own
effective length. -/
theorem exportLoop_length (rnd : Nat → Nat) (L : Int) :
    ∀ (cs : List BinaryImage) (ret : List Nat),
      (∀ c ∈ cs, 0 ≤ c.offset ∧ c.offset + c.len ≤ L ∧ 0 ≤ c.len ∧
        (exportImage rnd c).length = c.len.toNat) →
      ret.length = L.toNat → (exportLoop rnd ret cs).length = L.toNat := by
  intro cs
  induction cs with
  | nil => intro ret _ hret; simpa [exportLoop] using hret
  | cons c rest ih =>
    intro ret hall hret
    obtain ⟨hco, hcw, hcl, hce⟩ := hall c (List.mem_cons_self c rest)
    have hx : listSliceTo (exportImage rnd c) c.len = exportImage rnd c :=
      listSliceTo_self _ _ hcl hce
    have hslice : (setSlice ret c.offset (c.offset + c.len)
        (listSliceTo (exportImage rnd c) c.len)).length = ret.length := by
      refine setSlice_length ret _ c.offset (c.offset + c.len) hco ?_ ?_
      · rw [hx, hce, Int.toNat_of_nonneg hcl]
      · rw [hret, Int.toNat_of_nonneg (by omega : (0:Int) ≤ L)]
        exact hcw
    exact ih _ (fun d hd => hall d (List.mem_cons_of_mem c hd)) (hslice.trans hret)

/-- The buffer of `export` before the child overlays has exactly the
node's effective length. -/
theorem preChildren_length (rnd : Nat → Nat) (img : BinaryImage)
    (hl : 0 ≤ img.len) (hp : patternFull img.pattern img.len.toNat = true)
    (hb : (img.binary.length : Int) ≤ img.len) :
    (preChildren rnd img).length = img.len.toNat := by
  unfold preChildren
  by_cases h : img.binary = []
  · rw [if_pos h]; exact patternBlock_length rnd img hp
  · rw [if_neg h]
    have hbase := patternBlock_length rnd img hp
    rw [setSlice_length (patternBlock rnd img) img.binary 0
      (img.binary.length : Int) le_rfl (by simp) (by rw [hbase]; omega)]
    exact hbase

/-- Decomposition of `exportOkList` into per-child conditions. -/
theorem exportOkList_mem {L : Int} :
    ∀ {cs : List BinaryImage}, exportOkList L cs = true →
      ∀ c ∈ cs, 0 ≤ c.offset ∧ c.offset + c.len ≤ L ∧ exportOk c = true := by
  intro cs
  induction cs with
  | nil => intro _ c hc; simp at hc
  | cons d ds ih =>
    intro h c hc
    simp only [exportOkList, Bool.and_eq_true, decide_eq_true_eq] at h
    obtain ⟨⟨⟨hd1, hd2⟩, hd3⟩, hds⟩ := h
    rcases List.mem_cons.mp hc with h' | h'
    · exact h' ▸ ⟨hd1, hd2, hd3⟩
    · exact ih hds c h'

/-- A well-formed node has nonnegative effective length. -/
theorem exportOk_len_nonneg {img : BinaryImage} (h : exportOk img = true) :
    0 ≤ img.len := by
  cases img with | mk o sz bin pat subs =>
  simp only [exportOk, Bool.and_eq_true, decide_eq_true_eq] at h
  exact h.1.1.1

/-- C3 amended, auxiliary form with an explicit size bound for the
induction: a well-formed node exports exactly its effective length. -/
theorem export_length_aux (rnd : Nat → Nat) :
    ∀ (n : Nat) (img : BinaryImage), sizeOf img ≤ n → exportOk img = true →
      (exportImage rnd img).length = img.len.toNat := by
  intro n
  induction n with
  | zero =>
    intro img hs
    cases img with | mk o sz bin pat subs =>
    simp [BinaryImage.mk.sizeOf_spec] at hs
  | succ n ih =>
    intro img hs hok
    cases img with | mk o sz bin pat subs =>
    simp only [exportOk, Bool.and_eq_true, decide_eq_true_eq] at hok
    obtain ⟨⟨⟨hl, hp⟩, hb⟩, hsubs⟩ := hok
    have hpre : (preChildren rnd (.mk o sz bin pat subs)).length =
        (BinaryImage.len (.mk o sz bin pat subs)).toNat :=
      preChildren_length rnd _ hl hp hb
    show (exportLoop rnd (preChildren rnd (.mk o sz bin pat subs)) subs).length = _
    refine exportLoop_length rnd _ subs _ ?_ hpre
    intro c hc
    obtain ⟨h1, h2, h3⟩ := exportOkList_mem hsubs c hc
    have hsize : sizeOf c ≤ n := by
      have h4 := List.sizeOf_lt_of_mem hc
      have h5 : sizeOf (BinaryImage.mk o sz bin pat subs) =
          1 + sizeOf o + sizeOf sz + sizeOf bin + sizeOf pat + sizeOf subs :=
        BinaryImage.mk.sizeOf_spec o sz bin pat subs
      omega
    exact ⟨h1, h2, exportOk_len_nonneg h3, ih c hsize h3⟩

/-- C3 amended: for every tree that is well formed in the sense of
`exportOk` — nonnegative effective lengths, content buffers no longer
than the node, children whose windows lie inside the parent, and
pattern backgrounds of full length — `export` returns a buffer of
exactly the node's effective length, whether or not the tree was
validated (sibling overlap is permitted by `exportOk`). -/
theorem c3_export_length (rnd : Nat → Nat) (img : BinaryImage)
    (h : exportOk img = true) :
    (exportImage rnd img).length = img.len.toNat :=
  export_length_aux rnd (sizeOf img) img le_rfl h

/-- Witness for C3's amended statement: the layered-export scenario
(parent of size 4 with `zeros` pattern, one child at offset 1 of size 2
with content `AA BB`) is well formed and exports exactly 4 bytes. -/
theorem c3_witness :
    exportOk (.mk 0 4 [] (some .zeros) [.mk 1 2 [170, 187] none []]) = true ∧
    (exportImage (fun _ => 0)
        (.mk 0 4 [] (some .zeros) [.mk 1 2 [170, 187] none []])).length =
      (BinaryImage.len (.mk 0 4 [] (some .zeros) [.mk 1 2 [170, 187] none []])).toNat ∧
    exportImage (fun _ => 0) (.mk 0 4 [] (some .zeros) [.mk 1 2 [170, 187] none []])
        = [0, 170, 187, 0] :=
  ⟨by decide,
   c3_export_length (fun _ => 0) (.mk 0 4 [] (some .zeros) [.mk 1 2 [170, 187] none []])
     (by decide),
   by decide⟩
/-- A node that validates successfully passed the first two checks of
`validate`: nonnegative offset and positive effective length. -/
theorem validate_none_pos {c : BinaryImage} (h : validate c = none) :
    0 ≤ c.offset ∧ 0 < c.len := by
  cases c with | mk o sz bin pat subs =>
  simp only [validate] at h
  split_ifs at h with h1 h2
  exact ⟨not_lt.mp h1, not_le.mp h2⟩

/-- Characterisation of the child loop of `validate` when every child
validates successfully and passes the code's fit check: the loop
reports exactly whether some not-yet-processed child has an overlapping
partner among all the siblings. -/
theorem validateLoop_char (plen : Int) (all : List BinaryImage)
    (hsub : ∀ c ∈ all, validate c = none ∧ c.offset + c.len - 1 ≤ plen) :
    ∀ (rest : List BinaryImage) (i : Nat), rest = all.drop i →
      validateLoop plen (intervalsOf all) rest i =
        (if ((List.range all.length).drop i).any (overlapAt all) then
          some .overlapError else none) := by
  intro rest
  induction rest with
  | nil =>
    intro i hi
    have hlen : all.length ≤ i := by
      have h' := congrArg List.length hi
      simp only [List.length_nil, List.length_drop] at h'
      omega
    have hrange : (List.range all.length).drop i = [] :=
      List.drop_eq_nil_of_le (by simpa using hlen)
    simp [validateLoop, hrange]
  | cons c rest' ih =>
    intro i hi
    have hget : all.get? i = some c := by
      have h0 := List.get?_drop all i 0
      rw [← hi] at h0
      simpa using h0.symm
    have hilt : i < all.length := by
      by_contra hc
      rw [List.get?_eq_none.mpr (le_of_not_lt hc)] at hget
      cases hget
    have hdrop : all.drop (i + 1) = rest' := by
      rw [← List.tail_drop, ← hi]
      rfl
    have hmem : c ∈ all := List.get?_mem hget
    obtain ⟨hvc, hfit⟩ := hsub c hmem
    have hrange : (List.range all.length).drop i =
        i :: (List.range all.length).drop (i + 1) := by
      rw [List.drop_eq_get_cons (by simpa using hilt : i < (List.range all.length).length)]
      simp [List.get_range]
    rw [hrange]
    have hunf : validateLoop plen (intervalsOf all) (c :: rest') i =
        match validate c with
        | some err => some err
        | none =>
          if c.offset + c.len - 1 > plen then some VErr.fitError
          else if hasOverlapAt c.offset (c.offset + c.len - 1) i (intervalsOf all)
            then some VErr.overlapError
          else validateLoop plen (intervalsOf all) rest' (i + 1) := rfl
    rw [hunf, hvc]
    show (if c.offset + c.len - 1 > plen then some VErr.fitError
          else if hasOverlapAt c.offset (c.offset + c.len - 1) i (intervalsOf all)
            then some VErr.overlapError
          else validateLoop plen (intervalsOf all) rest' (i + 1)) = _
    rw [if_neg (not_lt.mpr hfit)]
    have hov : overlapAt all i
        = hasOverlapAt c.offset (c.offset + c.len - 1) i (intervalsOf all) := by
      unfold overlapAt
      rw [hget]
    cases hcase : hasOverlapAt c.offset (c.offset + c.len - 1) i (intervalsOf all) with
    | true =>
      simp [List.any_cons, hov, hcase]
    | false =>
      rw [ih (i + 1) hdrop.symm]
      simp [List.any_cons, hov, hcase]

/-- For siblings of positive effective length, the code's
inclusive-interval disjointness test is the complement of half-open
range intersection. -/
theorem inclusive_eq_ho (c d : BinaryImage) (hc : 0 < c.len) (hd : 0 < d.len) :
    (!(decide (c.offset + c.len - 1 < d.offset) ||
        decide (c.offset > d.offset + d.len - 1))) = overlapsHO c d := by
  rw [Bool.eq_iff_iff]
  simp only [overlapsHO, Bool.not_eq_true', Bool.or_eq_false_iff,
    decide_eq_false_iff_not, decide_eq_true_eq, not_lt, max_lt_iff, lt_min_iff]
  omega

/-- With positive child lengths, "some child has an overlapping
partner under the code's inclusive test" is exactly "some pair of
distinct children has intersecting half-open ranges". -/
theorem rangeAny_eq_anyOverlap (all : List BinaryImage)
    (hpos : ∀ c ∈ all, 0 < c.len) :
    (List.range all.length).any (overlapAt all) = anyOverlap all := by
  rw [Bool.eq_iff_iff]
  unfold anyOverlap
  simp only [List.any_eq_true, List.mem_range]
  constructor
  · rintro ⟨t, ht, hov⟩
    unfold overlapAt at hov
    rcases hgt : all.get? t with _ | c
    · rw [hgt] at hov; cases hov
    · rw [hgt] at hov
      unfold hasOverlapAt at hov
      simp only [List.any_eq_true, List.mem_range] at hov
      obtain ⟨j, hj, hcond⟩ := hov
      rw [Bool.and_eq_true] at hcond
      obtain ⟨hne, hmatch⟩ := hcond
      have hne' : j ≠ t := by simpa using hne
      have hjlen : j < all.length := by simpa [intervalsOf] using hj
      rcases hgd : all.get? j with _ | d
      · rw [show (intervalsOf all).get? j = none by
          unfold intervalsOf; rw [List.get?_map, hgd]; rfl] at hmatch
        cases hmatch
      · rw [show (intervalsOf all).get? j = some (d.offset, d.offset + d.len - 1) by
          unfold intervalsOf; rw [List.get?_map, hgd]; rfl] at hmatch
        refine ⟨t, ht, j, hjlen, ?_⟩
        rw [Bool.and_eq_true]
        refine ⟨by simpa using hne'.symm, ?_⟩
        rw [hgt, hgd]
        show overlapsHO c d = true
        rw [← inclusive_eq_ho c d (hpos c (List.get?_mem hgt)) (hpos d (List.get?_mem hgd))]
        exact hmatch
  · rintro ⟨i, hi, j, hj, hcond⟩
    rw [Bool.and_eq_true] at hcond
    obtain ⟨hne, hmatch⟩ := hcond
    have hne' : i ≠ j := by simpa using hne
    rcases hgi : all.get? i with _ | c
    · rw [hgi] at hmatch; cases hmatch
    rcases hgj : all.get? j with _ | d
    · rw [hgi, hgj] at hmatch; cases hmatch
    rw [hgi, hgj] at hmatch
    have hmatch' : overlapsHO c d = true := hmatch
    refine ⟨i, hi, ?_⟩
    unfold overlapAt
    rw [hgi]
    unfold hasOverlapAt
    simp only [List.any_eq_true, List.mem_range]
    refine ⟨j, by simpa [intervalsOf] using hj, ?_⟩
    rw [Bool.and_eq_true]
    refine ⟨by simpa using hne'.symm, ?_⟩
    rw [show (intervalsOf all).get? j = some (d.offset, d.offset + d.len - 1) by
      unfold intervalsOf; rw [List.get?_map, hgj]; rfl]
    show (!(decide (c.offset + c.len - 1 < d.offset) ||
        decide (c.offset > d.offset + d.len - 1))) = true
    rw [inclusive_eq_ho c d (hpos c (List.get?_mem hgi)) (hpos d (List.get?_mem hgj))]
    exact hmatch' 

/-- C5: for a parent whose own offset/length checks pass and whose
children all validate successfully and fit (so all have positive
effective length), `validate` raises an overlap error exactly when some
pair of distinct siblings has intersecting half-open ranges
`[offset, offset + len)`, and passes otherwise — in particular adjacent
siblings (one starting exactly where the other ends) pass. -/
theorem c5_validate_overlap_iff (img : BinaryImage)
    (h0 : 0 ≤ img.offset) (h1 : 0 < img.len)
    (hsub : ∀ c ∈ img.sub_images, validate c = none ∧ c.offset + c.len ≤ img.len) :
    validate img =
      (if anyOverlap img.sub_images then some VErr.overlapError else none) := by
  cases img with | mk o sz bin pat subs =>
  have h0' : (0:Int) ≤ o := h0
  have hsub0 : ∀ c ∈ subs, validate c = none ∧
      c.offset + c.len ≤ BinaryImage.len (.mk o sz bin pat subs) := hsub
  have hpos : ∀ c ∈ subs, 0 < c.len := fun c hc =>
    (validate_none_pos (hsub0 c hc).1).2
  have hsub' : ∀ c ∈ subs, validate c = none ∧
      c.offset + c.len - 1 ≤ BinaryImage.len (.mk o sz bin pat subs) := by
    intro c hc
    refine ⟨(hsub0 c hc).1, ?_⟩
    have := (hsub0 c hc).2
    omega
  have hunf : validate (.mk o sz bin pat subs) =
      if o < 0 then some VErr.valueError
      else if BinaryImage.len (.mk o sz bin pat subs) ≤ 0 then some VErr.valueError
      else validateLoop (BinaryImage.len (.mk o sz bin pat subs))
        (intervalsOf subs) subs 0 := rfl
  rw [hunf, if_neg (not_lt.mpr h0'), if_neg (not_le.mpr h1)]
  rw [validateLoop_char (BinaryImage.len (.mk o sz bin pat subs)) subs hsub' subs 0
    (List.drop_zero subs).symm]
  rw [List.drop_zero, rangeAny_eq_anyOverlap subs hpos]
  rfl

/-- Witness for C5 at the spec's two scenarios: adjacent children at
offsets 0 and 8 (sizes 8) in a size-16 parent pass validation; children
at offsets 0 and 4 (sizes 8) raise the overlap error. -/
theorem c5_witness :
    ((0:Int) ≤ (BinaryImage.mk 0 16 [] none
        [.mk 0 8 [] none [], .mk 8 8 [] none []]).offset) ∧
    validate (.mk 0 16 [] none [.mk 0 8 [] none [], .mk 8 8 [] none []]) =
      (if anyOverlap (BinaryImage.mk 0 16 [] none
          [.mk 0 8 [] none [], .mk 8 8 [] none []]).sub_images
        then some VErr.overlapError else none) ∧
    validate (.mk 0 16 [] none [.mk 0 8 [] none [], .mk 8 8 [] none []]) = none ∧
    validate (.mk 0 16 [] none [.mk 0 8 [] none [], .mk 4 8 [] none []]) =
      (if anyOverlap (BinaryImage.mk 0 16 [] none
          [.mk 0 8 [] none [], .mk 4 8 [] none []]).sub_images
        then some VErr.overlapError else none) ∧
    validate (.mk 0 16 [] none [.mk 0 8 [] none [], .mk 4 8 [] none []]) =
      some VErr.overlapError :=
  ⟨by decide,
   c5_validate_overlap_iff _ (by decide) (by decide) (by decide),
   by decide,
   c5_validate_overlap_iff _ (by decide) (by decide) (by decide),
   by decide⟩

/-- Position-wise description of a Python slice assignment whose target
slice lies inside the buffer and whose right-hand side has exactly the
slice's width: positions inside the window read from the new bytes,
positions outside are untouched. -/
theorem setSlice_get? (ret x : List Nat) (a b : Int) (k : Nat) (ha : 0 ≤ a)
    (hab : b = a + (x.length : Int)) (hb : b ≤ (ret.length : Int)) :
    (setSlice ret a b x).get? k =
      if a.toNat ≤ k ∧ k < a.toNat + x.length then x.get? (k - a.toNat)
      else ret.get? k := by
  have hb0 : 0 ≤ b := by have := Int.natCast_nonneg x.length; omega
  have hA : normIdx ret.length a = a.toNat := by
    unfold normIdx; rw [if_neg (not_lt.mpr ha)]; omega
  have hB : normIdx ret.length b = b.toNat := by
    unfold normIdx; rw [if_neg (not_lt.mpr hb0)]; omega
  have hBA : max (normIdx ret.length a) (normIdx ret.length b)
      = a.toNat + x.length := by
    rw [hA, hB]; omega
  have hbN : a.toNat + x.length ≤ ret.length := by omega
  unfold setSlice
  rw [hBA, hA]
  have hlen_take : (ret.take a.toNat).length = a.toNat := by
    rw [List.length_take]; omega
  by_cases h1 : k < a.toNat
  · rw [List.get?_append (by simp [hlen_take]; omega),
      List.get?_append (by rw [hlen_take]; omega), if_neg (by omega)]
    exact List.get?_take h1
  · by_cases h2 : k < a.toNat + x.length
    · rw [List.get?_append (by simp [hlen_take]; omega),
        List.get?_append_right (by rw [hlen_take]; omega), hlen_take,
        if_pos (by omega)]
    · rw [List.get?_append_right (by simp [hlen_take]; omega),
        if_neg (by omega), List.get?_drop]
      simp only [List.length_append, hlen_take]
      congr 1
      omega

/-- The accumulator of the `lastCover` fold only matters when no later
child covers the position. -/
theorem lastCover_aux (k : Int) :
    ∀ (cs : List BinaryImage) (acc : Option BinaryImage),
      cs.foldl (fun acc c =>
          if c.offset ≤ k ∧ k < c.offset + c.len then some c else acc) acc =
        match lastCover k cs with
        | some d => some d
        | none => acc := by
  intro cs
  induction cs with
  | nil => intro acc; simp [lastCover]
  | cons c cs ih =>
    intro acc
    show cs.foldl _ (if c.offset ≤ k ∧ k < c.offset + c.len then some c else acc) = _
    rw [ih]
    have hc : lastCover k (c :: cs) =
        match lastCover k cs with
        | some d => some d
        | none => if c.offset ≤ k ∧ k < c.offset + c.len then some c else none := by
      show cs.foldl _ (if c.offset ≤ k ∧ k < c.offset + c.len then some c else none) = _
      rw [ih]
    rw [hc]
    cases lastCover k cs with
    | some d => rfl
    | none =>
      by_cases hcov : c.offset ≤ k ∧ k < c.offset + c.len
      · simp [hcov]
      · simp [hcov]

/-- Position-wise description of the child loop of `export` when every
child's window lies inside the buffer and every child exports exactly
its own effective length: the byte at a position comes from the last
child in list order covering it, and from the incoming buffer when no
child covers it. -/
theorem exportLoop_get? (rnd : Nat → Nat) (L : Int) (k : Nat) :
    ∀ (cs : List BinaryImage) (ret : List Nat),
      ret.length = L.toNat →
      (∀ c ∈ cs, 0 ≤ c.offset ∧ c.offset + c.len ≤ L ∧ 0 ≤ c.len ∧
        (exportImage rnd c).length = c.len.toNat) →
      (exportLoop rnd ret cs).get? k =
        match lastCover (k : Int) cs with
        | some c => (exportImage rnd c).get? (((k : Int) - c.offset).toNat)
        | none => ret.get? k := by
  intro cs
  induction cs with
  | nil =>
    intro ret _ _
    simp [exportLoop, lastCover]
  | cons c rest ih =>
    intro ret hret hall
    obtain ⟨hco, hcw, hcl, hce⟩ := hall c (List.mem_cons_self c rest)
    have hx : listSliceTo (exportImage rnd c) c.len = exportImage rnd c :=
      listSliceTo_self _ _ hcl hce
    have hL0 : 0 ≤ L := le_trans (by omega) hcw
    have hslice_len : (setSlice ret c.offset (c.offset + c.len)
        (listSliceTo (exportImage rnd c) c.len)).length = ret.length := by
      refine setSlice_length ret _ c.offset (c.offset + c.len) hco ?_ ?_
      · rw [hx, hce, Int.toNat_of_nonneg hcl]
      · rw [hret, Int.toNat_of_nonneg hL0]
        exact hcw
    have hstep : exportLoop rnd ret (c :: rest) =
        exportLoop rnd (setSlice ret c.offset (c.offset + c.len)
          (listSliceTo (exportImage rnd c) c.len)) rest := rfl
    rw [hstep, ih _ (hslice_len.trans hret)
      (fun d hd => hall d (List.mem_cons_of_mem c hd))]
    have hlc : lastCover (k : Int) (c :: rest) =
        match lastCover (k : Int) rest with
        | some d => some d
        | none => if c.offset ≤ (k : Int) ∧ (k : Int) < c.offset + c.len
            then some c else none := by
      show rest.foldl _ (if c.offset ≤ (k : Int) ∧ (k : Int) < c.offset + c.len
          then some c else none) = _
      rw [lastCover_aux]
    rw [hlc]
    cases lastCover (k : Int) rest with
    | some d => rfl
    | none =>
      show (setSlice ret c.offset (c.offset + c.len)
          (listSliceTo (exportImage rnd c) c.len)).get? k = _
      rw [hx]
      rw [setSlice_get? ret (exportImage rnd c) c.offset (c.offset + c.len) k hco
        (by rw [hce, Int.toNat_of_nonneg hcl])
        (by rw [hret, Int.toNat_of_nonneg hL0]; exact hcw)]
      by_cases hcov : c.offset ≤ (k : Int) ∧ (k : Int) < c.offset + c.len
      · rw [if_pos (by rw [hce]; omega), if_pos hcov]
        congr 1
        omega
      · rw [if_neg (by rw [hce]; omega), if_neg hcov]

/-- C6: `export` consults no validation result and is defined on every
tree satisfying `exportOk` — which permits arbitrarily overlapping
siblings — and composes each node by the fixed layering rule: the byte
at position `k` comes from the last child in child-list order whose
window covers `k` (later children overwrite earlier ones in any shared
range, and any covering child overwrites the node's own content), and
where no child covers `k` it comes from the content overlay where the
content reaches and from the pattern background elsewhere. -/
theorem c6_export_layering (rnd : Nat → Nat) (img : BinaryImage)
    (hok : exportOk img = true) (k : Nat) :
    (exportImage rnd img).get? k =
      (match lastCover (k : Int) img.sub_images with
       | some c => (exportImage rnd c).get? (((k : Int) - c.offset).toNat)
       | none => (preChildren rnd img).get? k) ∧
    (preChildren rnd img).get? k =
      (if k < img.binary.length then img.binary.get? k
       else (patternBlock rnd img).get? k) := by
  cases img with | mk o sz bin pat subs =>
  simp only [exportOk, Bool.and_eq_true, decide_eq_true_eq] at hok
  obtain ⟨⟨⟨hl, hp⟩, hb⟩, hsubs⟩ := hok
  constructor
  · have hunf : exportImage rnd (.mk o sz bin pat subs) =
        exportLoop rnd (preChildren rnd (.mk o sz bin pat subs)) subs := rfl
    rw [hunf]
    rw [exportLoop_get? rnd (BinaryImage.len (.mk o sz bin pat subs)) k subs
      (preChildren rnd (.mk o sz bin pat subs))
      (preChildren_length rnd _ hl hp hb)
      (fun c hc => by
        obtain ⟨h1, h2, h3⟩ := exportOkList_mem hsubs c hc
        exact ⟨h1, h2, exportOk_len_nonneg h3,
          export_length_aux rnd (sizeOf c) c le_rfl h3⟩)]
    rfl
  · show (preChildren rnd (.mk o sz bin pat subs)).get? k = _
    unfold preChildren
    by_cases hbe : (BinaryImage.mk o sz bin pat subs).binary = []
    · rw [if_pos hbe]
      simp only [BinaryImage.binary_mk] at hbe
      subst hbe
      simp
    · rw [if_neg hbe]
      have hbase := patternBlock_length rnd (.mk o sz bin pat subs) hp
      rw [setSlice_get? (patternBlock rnd (.mk o sz bin pat subs))
        ((BinaryImage.mk o sz bin pat subs).binary) 0
        ((BinaryImage.mk o sz bin pat subs).binary.length : Int) k le_rfl
        (by simp)
        (by rw [hbase]; simp only [BinaryImage.binary_mk]; omega)]
      simp only [Int.toNat_zero, Nat.zero_le, true_and, Nat.zero_add,
        Nat.sub_zero, BinaryImage.binary_mk]

/-- Witness for C6 at the overlapping unvalidated tree `c6tree`:
validation raises the overlap error, yet export produces the layered
buffer `09 01 02 02 02 00` — at position 2 the later-ordered child (at
offset 2) wins over both the earlier child and the parent's own
content byte. -/
theorem c6_witness :
    exportOk c6tree = true ∧
    validate c6tree = some VErr.overlapError ∧
    ((exportImage (fun _ => 0) c6tree).get? 2 =
      (match lastCover ((2 : Nat) : Int) c6tree.sub_images with
       | some c => (exportImage (fun _ => 0) c).get? ((((2 : Nat) : Int) - c.offset).toNat)
       | none => (preChildren (fun _ => 0) c6tree).get? 2) ∧
     (preChildren (fun _ => 0) c6tree).get? 2 =
      (if 2 < c6tree.binary.length then c6tree.binary.get? 2
       else (patternBlock (fun _ => 0) c6tree).get? 2)) ∧
    exportImage (fun _ => 0) c6tree = [9, 1, 2, 2, 2, 0] ∧
    lastCover ((2 : Nat) : Int) c6tree.sub_images = some (.mk 2 3 [2, 2, 2] none []) :=
  ⟨by decide, by decide, c6_export_layering (fun _ => 0) c6tree (by decide) 2,
   by decide, rfl⟩
